import Mathlib

/-!
# Verification of difftastic's inline ("unified") diff display

A shallow embedding of `src/display/inline.rs` (the inline diff printer) and
proofs about it.  Line numbers (`LineNumber(u32)`, zero-based indices) are
modelled as `Nat`; no arithmetic here can overflow `u32` in a way the claims
touch (`(a..=b).nth(1)` and `nth_back(1)` never leave the range `a..=b`).
Strings are modelled as `List Char`; the external formatting, colouring and
context collaborators (out of scope in the design) are parameters gathered in
an `Externals` structure.  Fallible vector indexing (`lines[i]`, which panics
when out of range) is modelled by `List.get?`, with `none` standing for the
panic; the printer therefore returns `Option`.
-/

namespace Inline

/-- One correspondence pair of `Hunk::lines`:
`(Option<LineNumber>, Option<LineNumber>)`. -/
abbrev Pair := Option Nat × Option Nat

/-- `Side` from `constants.rs`: which side of the diff a line belongs to. -/
inductive Side where
  | Left
  | Right
deriving DecidableEq, Repr

/-- `to_lhs_iter`: `items.iter().filter_map(|(lhs, _)| *lhs)`. -/
def to_lhs_iter (items : List Pair) : List Nat :=
  items.filterMap (fun p => p.1)

/-- `to_rhs_iter`: `items.iter().filter_map(|(_, rhs)| *rhs)`. -/
def to_rhs_iter (items : List Pair) : List Nat :=
  items.filterMap (fun p => p.2)

/-- `get_first_last`: take the iterator's first element, then its last
remaining element (falling back to the first when the iterator had exactly
one element). -/
def get_first_last {α : Type} : List α → Option (α × α)
  | [] => none
  | x :: xs => some (x, (xs.getLast?).getD x)

/-- The `first_rhs_line` block of `print` (inline.rs lines 105–121): split the
before-context window into its leading run of common pairs and the rest; the
first uncommon pair's right value wins; otherwise step one position past the
last common pair's right value toward the hunk's first right value
(`(a..=b).map(LineNumber).nth(1)`). -/
def first_rhs_line (before_lines hunk_lines : List Pair) : Option Nat :=
  let common_len :=
    (before_lines.takeWhile (fun p => p.1.isSome && p.2.isSome)).length
  let common_lines := before_lines.take common_len
  let uncommon_lines := before_lines.drop common_len
  match uncommon_lines.head? with
  | some (_, rhs_line) => rhs_line
  | none =>
    match common_lines.getLast? with
    | some (_, some a) =>
      match (to_rhs_iter hunk_lines).head? with
      | some b => if a + 1 ≤ b then some (a + 1) else none
      | none => none
    | _ => none

/-- The `last_lhs_line` block of `print` (inline.rs lines 122–140): the mirror
image of `first_rhs_line` (swap left/right, first/last, before/after);
`(a..=b).map(LineNumber).nth_back(1)` is `b - 1` when `a + 1 ≤ b`. -/
def last_lhs_line (after_lines hunk_lines : List Pair) : Option Nat :=
  let common_len :=
    (after_lines.reverse.takeWhile (fun p => p.1.isSome && p.2.isSome)).length
  let uncommon_lines := after_lines.take (after_lines.length - common_len)
  let common_lines := after_lines.drop (after_lines.length - common_len)
  match uncommon_lines.getLast? with
  | some (lhs_line, _) => lhs_line
  | none =>
    match common_lines.head? with
    | some (some b, _) =>
      match (to_lhs_iter hunk_lines).getLast? with
      | some a => if a + 1 ≤ b then some (b - 1) else none
      | none => none
    | _ => none

/-- `all_lhs_lines`: `chain!(to_lhs_iter(before), to_lhs_iter(hunk),
last_lhs_line)` (inline.rs lines 142–146). -/
def all_lhs_lines (before_lines hunk_lines after_lines : List Pair) :
    List Nat :=
  to_lhs_iter before_lines ++ to_lhs_iter hunk_lines ++
    (last_lhs_line after_lines hunk_lines).toList

/-- `all_rhs_lines`: `chain!(first_rhs_line, to_rhs_iter(hunk),
to_rhs_iter(after))` (inline.rs lines 147–151). -/
def all_rhs_lines (before_lines hunk_lines after_lines : List Pair) :
    List Nat :=
  (first_rhs_line before_lines hunk_lines).toList ++ to_rhs_iter hunk_lines ++
    to_rhs_iter after_lines

/-- The shared column width (inline.rs lines 155–162): the larger of the two
intervals' `last` components (`LineNumber(0)` when both intervals are absent),
formatted, measured in characters. -/
def line_column_width (format_line_num : Nat → List Char)
    (first_last_lhs_lines first_last_rhs_lines :
      Option (Nat × Nat)) : Nat :=
  let max_line :=
    ((([first_last_lhs_lines, first_last_rhs_lines].filterMap id).map
      Prod.snd).foldl max 0)
  (format_line_num max_line).length

/-- The inclusive range `(first.0..=last.0).map(LineNumber)` walked by each
side's print loop. -/
def lineRange (first last : Nat) : List Nat :=
  List.range' first (last + 1 - first)

/-- The novelty cursor of the print loops (inline.rs lines 165–167 and
182–184): a fused peekable iterator over the hunk's per-side values, advanced
by `next_if_eq` at each range value.  Returns each range value paired with its
`is_novel` flag. -/
def novelty_iter : List Nat → List Nat →
    List (Nat × Bool)
  | _, [] => []
  | [], n :: ns => (n, false) :: novelty_iter [] ns
  | h :: hs, n :: ns =>
    if h = n then (n, true) :: novelty_iter hs ns
    else (n, false) :: novelty_iter (h :: hs) ns

/-- The external collaborators consumed by `print` (formatting, colouring,
header rendering, and the context-window computation from
`display/context.rs`), kept abstract as the design treats them. -/
structure Externals where
  format_line_num : Nat → List Char
  format_line_num_padded : Nat → Nat → List Char
  apply_line_number_color : List Char → Bool → Side → List Char
  header : Nat → Nat → List Char
  calculate_before_context : List Pair → List Pair
  calculate_after_context : List Pair → List Pair

/-- Emit one rendered line per classified range value, failing (`none`) as the
loop's `print!` would panic when a lookup fails. -/
def emit_all (f : Nat × Bool → Option (List Char)) :
    List (Nat × Bool) → Option (List (List Char))
  | [] => some []
  | p :: ps =>
    match f p, emit_all f ps with
    | some s, some rest => some (s :: rest)
    | _, _ => none

/-- One side's print loop (inline.rs lines 164–179 resp. 181–196): when the
interval is absent nothing is printed; otherwise every line number of the
inclusive range is classified by the novelty cursor, its pre-rendered source
text looked up (`none` models the out-of-range panic), and the line emitted
through `mk` (which assembles the number part and the source text). -/
def print_block (fmt : Nat → Bool → List Char)
    (mk : List Char → List Char → List Char) (tbl : List (List Char))
    (hunk_vals : List Nat) (interval : Option (Nat × Nat)) :
    Option (List (List Char)) :=
  match interval with
  | none => some []
  | some (first, last) =>
    emit_all
      (fun p => (tbl.get? p.1).map (fun text => mk (fmt p.1 p.2) text))
      (novelty_iter hunk_vals (lineRange first last))

/-- The left block's `print!("{}   {}", colored_num, text)`. -/
def mk_lhs_line (num text : List Char) : List Char :=
  num ++ [' ', ' ', ' '] ++ text

/-- The right block's `print!("   {}{}", colored_num, text)`. -/
def mk_rhs_line (num text : List Char) : List Char :=
  [' ', ' ', ' '] ++ num ++ text

/-- The body of `print`'s per-hunk loop (inline.rs lines 71–198): header line,
boundary resolution, interval assembly, shared column width, left block, right
block, one blank line.  Each emitted `println!`/`print!` payload is one list
entry; `println!` payloads carry their explicit `\n`. -/
def print_hunk (E : Externals) (lhs_colored_lines rhs_colored_lines :
    List (List Char)) (before_lines hunk_lines after_lines : List Pair)
    (hdr : List Char) : Option (List (List Char)) :=
  let first_last_lhs_lines :=
    get_first_last (all_lhs_lines before_lines hunk_lines after_lines)
  let first_last_rhs_lines :=
    get_first_last (all_rhs_lines before_lines hunk_lines after_lines)
  let w := line_column_width E.format_line_num first_last_lhs_lines
    first_last_rhs_lines
  (print_block
      (fun n novel =>
        E.apply_line_number_color (E.format_line_num_padded n w) novel
          Side.Left)
      mk_lhs_line lhs_colored_lines (to_lhs_iter hunk_lines)
      first_last_lhs_lines).bind
    (fun lblock =>
      (print_block
          (fun n novel =>
            E.apply_line_number_color (E.format_line_num_padded n w) novel
              Side.Right)
          mk_rhs_line rhs_colored_lines (to_rhs_iter hunk_lines)
          first_last_rhs_lines).map
        (fun rblock => (hdr ++ ['\n']) :: (lblock ++ rblock ++ [['\n']])))

/-- One iteration of `print`'s hunk loop at index `idx` out of `total`:
computes the context windows through the external collaborators
(`calculate_before_context(hunk_lines, …)`, then `calculate_after_context`
applied to `[before_lines, hunk_lines].concat()`) and prints the hunk under
the header `style::header(…, idx + 1, total, …)`. -/
def print_hunk_at (E : Externals)
    (lhs_colored_lines rhs_colored_lines : List (List Char))
    (total idx : Nat) (hunk_lines : List Pair) : Option (List (List Char)) :=
  let before_lines := E.calculate_before_context hunk_lines
  let after_lines := E.calculate_after_context (before_lines ++ hunk_lines)
  print_hunk E lhs_colored_lines rhs_colored_lines before_lines hunk_lines
    after_lines (E.header (idx + 1) total)

/-- The hunk loop of `print` from index `idx` on, concatenating the per-hunk
emissions. -/
def print_hunks_go (E : Externals)
    (lhs_colored_lines rhs_colored_lines : List (List Char)) (total : Nat) :
    Nat → List (List Pair) → Option (List (List Char))
  | _, [] => some []
  | idx, h :: hs =>
    match print_hunk_at E lhs_colored_lines rhs_colored_lines total idx h,
      print_hunks_go E lhs_colored_lines rhs_colored_lines total (idx + 1)
        hs with
    | some out, some rest => some (out ++ rest)
    | _, _ => none

/-- `for (i, hunk) in hunks.iter().enumerate()`: the whole rendering pass over
all hunks. -/
def print_hunks (E : Externals)
    (lhs_colored_lines rhs_colored_lines : List (List Char))
    (hunks : List (List Pair)) : Option (List (List Char)) :=
  print_hunks_go E lhs_colored_lines rhs_colored_lines hunks.length 0 hunks

/-- Modelled from the spec: `split_on_newlines` (`crate::lines`, not under
`src/`), the line-splitting collaborator.  The spec keeps line splitting out
of scope, so this follows its interface description: the source text is split
into its lines with the `\n` terminators removed; a final run of characters
not ended by `\n` still forms a last line. -/
def split_on_newlines : List Char → List (List Char)
  | [] => []
  | c :: cs =>
    if c = '\n' then [] :: split_on_newlines cs
    else
      match split_on_newlines cs with
      | [] => [[c]]
      | p :: ps => (c :: p) :: ps

/-- Modelled from the spec: `style::replace_tabs` (`display/style.rs`, not
under `src/`), the `expand_tabs(line, tab_width) -> line` collaborator:
every tab character is expanded to `tab_width` spaces. -/
def replace_tabs (line : List Char) (tab_width : Nat) : List Char :=
  line.flatMap (fun c => if c = '\t' then List.replicate tab_width ' ' else [c])

/-- The no-colour pre-rendered source-line table (inline.rs lines 48–57 and
59–66): `split_on_newlines(src).map(|s| format!("{}\n", s))`, then
`replace_tabs` applied to every line. -/
def uncolored_lines (src : List Char) (tab_width : Nat) : List (List Char) :=
  ((split_on_newlines src).map (fun s => s ++ ['\n'])).map
    (fun line => replace_tabs line tab_width)

/-! ## Helper lemmas -/

theorem novelty_iter_map_fst (hv ls : List Nat) :
    (novelty_iter hv ls).map Prod.fst = ls := by
  induction ls generalizing hv with
  | nil => cases hv <;> rfl
  | cons n ns ih =>
    cases hv with
    | nil => simpa [novelty_iter] using ih []
    | cons h hs =>
      by_cases hEq : h = n <;> simp [novelty_iter, hEq, ih]

theorem novelty_iter_nil_snd (ls : List Nat) :
    ∀ p ∈ novelty_iter [] ls, p.2 = false := by
  induction ls with
  | nil => intro p hp; simp [novelty_iter] at hp
  | cons n ns ih =>
    intro p hp
    simp only [novelty_iter, List.mem_cons] at hp
    rcases hp with h | h
    · simp [h]
    · exact ih p h

theorem novelty_iter_nil_filter (ls : List Nat) :
    (novelty_iter [] ls).filterMap
      (fun p => if p.2 then some p.1 else none) = [] := by
  induction ls with
  | nil => rfl
  | cons n ns ih => simp [novelty_iter, ih]

theorem novelty_iter_filter_novel (k : Nat) :
    ∀ (first : Nat) (hv : List Nat), List.Sorted (· < ·) hv →
      (∀ v ∈ hv, first ≤ v ∧ v < first + k) →
      (novelty_iter hv (List.range' first k)).filterMap
        (fun p => if p.2 then some p.1 else none) = hv := by
  induction k with
  | zero =>
    intro first hv _ hmem
    cases hv with
    | nil => rfl
    | cons v vs =>
      have := hmem v (by simp)
      omega
  | succ k ih =>
    intro first hv hsorted hmem
    rw [List.range'_succ]
    cases hv with
    | nil => exact novelty_iter_nil_filter _
    | cons h hs =>
      rw [List.sorted_cons] at hsorted
      by_cases hEq : h = first
      · subst hEq
        have hrec : (novelty_iter hs (List.range' (h + 1) k)).filterMap
            (fun p => if p.2 then some p.1 else none) = hs := by
          refine ih (h + 1) hs hsorted.2 ?_
          intro v hv
          have h1 := hsorted.1 v hv
          have h2 := hmem v (List.mem_cons_of_mem _ hv)
          omega
        simp [novelty_iter, hrec]
      · have hfirst : first + 1 ≤ h := by
          have := hmem h (by simp)
          omega
        have hrec : (novelty_iter (h :: hs) (List.range' (first + 1) k)).filterMap
            (fun p => if p.2 then some p.1 else none) = h :: hs := by
          refine ih (first + 1) (h :: hs) (List.sorted_cons.mpr hsorted) ?_
          intro v hv
          rcases List.mem_cons.mp hv with rfl | hv'
          · have := hmem v (by simp)
            omega
          · have h1 := hsorted.1 v hv'
            have h2 := hmem v (List.mem_cons_of_mem _ hv')
            omega
        have hne : h ≠ first := hEq
        simp [novelty_iter, hne, hrec]

theorem chain'_succ_range' (n : Nat) :
    ∀ s : Nat, List.Chain' (fun x y => y = x + 1) (List.range' s n) := by
  induction n with
  | zero => intro s; simp
  | succ k ih =>
    intro s
    rw [List.range'_succ]
    rw [List.chain'_cons']
    refine ⟨?_, ih (s + 1)⟩
    intro y hy
    rw [List.head?_range'] at hy
    split at hy
    · simp at hy
    · simp at hy
      omega

/-! ## Claim theorems: novelty classification, printed-sequence shape,
column width -/

/-- C1: in each side's block, every printed line is classified novel or
common by the single forward cursor over the hunk's per-side present values
(`next_if_eq`), the set of line numbers classified novel is exactly that
side's present values of the hunk's own pair sequence, every line of the
interval is classified, and once the cursor is exhausted every remaining
line is classified common. -/
theorem C1_novelty_classification
    (before_lines hunk_lines after_lines : List Pair)
    (first last rfirst rlast : Nat)
    (_hintL : get_first_last (all_lhs_lines before_lines hunk_lines after_lines)
      = some (first, last))
    (_hintR : get_first_last (all_rhs_lines before_lines hunk_lines after_lines)
      = some (rfirst, rlast))
    (hsortL : List.Sorted (· < ·) (to_lhs_iter hunk_lines))
    (hmemL : ∀ v ∈ to_lhs_iter hunk_lines, first ≤ v ∧ v ≤ last)
    (hsortR : List.Sorted (· < ·) (to_rhs_iter hunk_lines))
    (hmemR : ∀ v ∈ to_rhs_iter hunk_lines, rfirst ≤ v ∧ v ≤ rlast) :
    ((novelty_iter (to_lhs_iter hunk_lines) (lineRange first last)).filterMap
        (fun p => if p.2 then some p.1 else none) = to_lhs_iter hunk_lines
      ∧ (novelty_iter (to_lhs_iter hunk_lines)
          (lineRange first last)).map Prod.fst = lineRange first last)
    ∧ ((novelty_iter (to_rhs_iter hunk_lines) (lineRange rfirst rlast)).filterMap
        (fun p => if p.2 then some p.1 else none) = to_rhs_iter hunk_lines
      ∧ (novelty_iter (to_rhs_iter hunk_lines)
          (lineRange rfirst rlast)).map Prod.fst = lineRange rfirst rlast)
    ∧ (∀ ls : List Nat, ∀ p ∈ novelty_iter [] ls, p.2 = false) := by
  refine ⟨⟨?_, novelty_iter_map_fst _ _⟩, ⟨?_, novelty_iter_map_fst _ _⟩,
    fun ls => novelty_iter_nil_snd ls⟩
  · refine novelty_iter_filter_novel _ _ _ hsortL ?_
    intro v hv
    have := hmemL v hv
    omega
  · refine novelty_iter_filter_novel _ _ _ hsortR ?_
    intro v hv
    have := hmemR v hv
    omega

/-- Witness for `C1_novelty_classification` at a concrete hunk (replace left
line 5 by right line 5, with common context lines around it). -/
theorem C1_novelty_classification_witness :
    (novelty_iter
        (to_lhs_iter [(some 5, none), (none, some 5)])
        (lineRange 3 6)).filterMap
      (fun p => if p.2 then some p.1 else none)
      = to_lhs_iter [(some 5, none), (none, some 5)] :=
  ((C1_novelty_classification
    [(some 3, some 3), (some 4, some 4)]
    [(some 5, none), (none, some 5)]
    [(some 7, some 7)]
    3 6 5 7
    (by decide) (by decide) (by decide) (by decide) (by decide)
    (by decide)).1).1

/-- C5: the sequence of line numbers printed in a side's block (the walk of
the inclusive display interval) is strictly increasing and contiguous — each
value is the predecessor's successor — and has no duplicates. -/
theorem C5_printed_sequence_contiguous
    (hunk_vals : List Nat) (first last : Nat) :
    (novelty_iter hunk_vals (lineRange first last)).map Prod.fst
        = lineRange first last
      ∧ List.Chain' (fun x y => y = x + 1) (lineRange first last)
      ∧ (lineRange first last).Nodup :=
  ⟨novelty_iter_map_fst _ _, chain'_succ_range' _ _,
    List.nodup_range' _ _⟩

/-- C6: one shared column width per hunk, symmetric in the two sides, equal
to the character width of the formatted larger of the two sides' interval
maxima, with line number zero as fallback when both intervals are absent. -/
theorem C6_column_width (f : Nat → List Char)
    (a b c d : Nat) :
    line_column_width f (some (a, b)) (some (c, d)) = (f (max b d)).length
      ∧ line_column_width f (some (a, b)) none = (f b).length
      ∧ line_column_width f none (some (c, d)) = (f d).length
      ∧ line_column_width f none none = (f 0).length
      ∧ ∀ x y : Option (Nat × Nat),
        line_column_width f x y = line_column_width f y x := by
  refine ⟨?_, ?_, ?_, rfl, ?_⟩
  · simp [line_column_width, Nat.zero_max]
  · simp [line_column_width, Nat.zero_max]
  · simp [line_column_width, Nat.zero_max]
  · intro x y
    cases x <;> cases y <;>
      simp [line_column_width, Nat.zero_max, Nat.max_comm]

theorem get_first_last_eq_none {α : Type} (l : List α) :
    get_first_last l = none ↔ l = [] := by
  cases l <;> simp [get_first_last]

theorem sorted_getLast?_max {l : List Nat} (hs : List.Sorted (· ≤ ·) l)
    {y : Nat} (hy : l.getLast? = some y) : ∀ x ∈ l, x ≤ y := by
  induction l with
  | nil => simp at hy
  | cons a t ih =>
    rw [List.sorted_cons] at hs
    intro x hx
    cases t with
    | nil =>
      simp at hy hx
      omega
    | cons b t' =>
      rw [List.getLast?_cons_cons] at hy
      rcases List.mem_cons.mp hx with rfl | hx'
      · exact hs.1 y (List.mem_of_getLast?_eq_some hy)
      · exact ih hs.2 hy x hx'

/-- C3: each side's display interval comes from concatenating the side's
projections of the before-context pairs, hunk pairs and resolved boundary
line (mirrored for the right side) and reducing to the first/last pair; the
reduction yields no interval exactly when the projected sequence is empty
(and then the printer emits nothing for that side), a singleton yields a
coinciding first/last pair, and on a sorted sequence the first/last pair is
the minimum/maximum pair. -/
theorem C3_display_interval
    (before_lines hunk_lines after_lines : List Pair) :
    (get_first_last (all_lhs_lines before_lines hunk_lines after_lines) = none
      ↔ all_lhs_lines before_lines hunk_lines after_lines = [])
    ∧ (get_first_last (all_rhs_lines before_lines hunk_lines after_lines) = none
      ↔ all_rhs_lines before_lines hunk_lines after_lines = [])
    ∧ (∀ x : Nat, get_first_last [x] = some (x, x))
    ∧ (∀ (ls : List Nat) (lo hi : Nat), List.Sorted (· ≤ ·) ls →
        get_first_last ls = some (lo, hi) →
        lo ∈ ls ∧ hi ∈ ls ∧ ∀ x ∈ ls, lo ≤ x ∧ x ≤ hi)
    ∧ (∀ (fmt : Nat → Bool → List Char)
        (mk : List Char → List Char → List Char)
        (tbl : List (List Char)) (hunk_vals : List Nat),
        print_block fmt mk tbl hunk_vals none = some []) := by
  refine ⟨get_first_last_eq_none _, get_first_last_eq_none _,
    fun x => rfl, ?_, fun fmt mk tbl hunk_vals => rfl⟩
  intro ls lo hi hs hfl
  cases ls with
  | nil => simp [get_first_last] at hfl
  | cons a t =>
    simp only [get_first_last, Option.some.injEq, Prod.mk.injEq] at hfl
    obtain ⟨rfl, rfl⟩ := hfl
    have hlast : (a :: t).getLast? = some ((t.getLast?).getD a) := by
      cases t with
      | nil => rfl
      | cons b t' =>
        rw [List.getLast?_cons_cons]
        rw [List.getLast?_eq_getLast (b :: t') (by simp)]
        rfl
    refine ⟨List.mem_cons_self _ _, ?_, ?_⟩
    · exact List.mem_of_getLast?_eq_some hlast
    · intro x hx
      constructor
      · rcases List.mem_cons.mp hx with rfl | hx'
        · exact Nat.le_refl _
        · exact (List.sorted_cons.mp hs).1 x hx'
      · exact sorted_getLast?_max hs hlast x hx

/-- Witness for `C3_display_interval`: the sorted-sequence conjunct at a
concrete three-element projection. -/
theorem C3_display_interval_witness :
    2 ∈ [2, 5, 9] ∧ 9 ∈ [2, 5, 9] ∧ ∀ x ∈ [2, 5, 9], 2 ≤ x ∧ x ≤ 9 :=
  (C3_display_interval [] [] []).2.2.2.1 [2, 5, 9] 2 9
    (by decide) (by decide)

theorem takeWhile_append_all {α : Type} (p : α → Bool) (l1 l2 : List α)
    (h : ∀ y ∈ l1, p y) :
    (l1 ++ l2).takeWhile p = l1 ++ l2.takeWhile p := by
  induction l1 with
  | nil => simp
  | cons a t ih =>
    have ha : p a := h a (List.mem_cons_self a t)
    have ht := ih (fun y hy => h y (List.mem_cons_of_mem _ hy))
    simp [List.takeWhile_cons, ha, ht]

theorem takeWhile_all {α : Type} (p : α → Bool) (l : List α)
    (h : ∀ x ∈ l, p x) : l.takeWhile p = l := by
  have := takeWhile_append_all p l [] h
  simpa using this

/-- On a wholly-common before-context window, `first_rhs_line` reduces to its
fallback derivation from the window's last pair and the hunk's first
right-side value. -/
theorem first_rhs_line_all_common (before_lines hunk_lines : List Pair)
    (hcommon : ∀ p ∈ before_lines, p.1.isSome ∧ p.2.isSome) :
    first_rhs_line before_lines hunk_lines =
      match before_lines.getLast? with
      | some (_, some a) =>
        match (to_rhs_iter hunk_lines).head? with
        | some b => if a + 1 ≤ b then some (a + 1) else none
        | none => none
      | _ => none := by
  have htw : before_lines.takeWhile (fun p => p.1.isSome && p.2.isSome)
      = before_lines := by
    apply takeWhile_all
    intro x hx
    have hc := hcommon x hx
    simp [hc.1, hc.2]
  simp only [first_rhs_line, htw, List.take_length, List.drop_length,
    List.head?_nil]

/-- On a wholly-common after-context window, `last_lhs_line` reduces to its
fallback derivation from the window's first pair and the hunk's last
left-side value. -/
theorem last_lhs_line_all_common (after_lines hunk_lines : List Pair)
    (hcommon : ∀ p ∈ after_lines, p.1.isSome ∧ p.2.isSome) :
    last_lhs_line after_lines hunk_lines =
      match after_lines.head? with
      | some (some b, _) =>
        match (to_lhs_iter hunk_lines).getLast? with
        | some a => if a + 1 ≤ b then some (b - 1) else none
        | none => none
      | _ => none := by
  have htw : after_lines.reverse.takeWhile (fun p => p.1.isSome && p.2.isSome)
      = after_lines.reverse := by
    apply takeWhile_all
    intro x hx
    have hc := hcommon x (List.mem_reverse.mp hx)
    simp [hc.1, hc.2]
  simp only [last_lhs_line, htw, List.length_reverse, Nat.sub_self,
    List.take_zero, List.getLast?_nil, List.drop_zero]

/-- C2: on a non-empty wholly-common before-context window the resolved first
right-side boundary is the successor of the last common pair's right value
(toward the hunk's first right-side value), absent when the hunk has no
right-side values; symmetrically, on a non-empty wholly-common after-context
window the resolved last left-side boundary is the predecessor of the first
common pair's left value (toward the hunk's last left-side value), absent
when the hunk has no left-side values. -/
theorem C2_boundary_wholly_common :
    (∀ (before_lines hunk_lines : List Pair) (x : Option Nat) (a b : Nat),
      (∀ p ∈ before_lines, p.1.isSome ∧ p.2.isSome) →
      before_lines.getLast? = some (x, some a) →
      (to_rhs_iter hunk_lines).head? = some b →
      a < b →
      first_rhs_line before_lines hunk_lines = some (a + 1))
    ∧ (∀ (before_lines hunk_lines : List Pair),
      (∀ p ∈ before_lines, p.1.isSome ∧ p.2.isSome) →
      to_rhs_iter hunk_lines = [] →
      first_rhs_line before_lines hunk_lines = none)
    ∧ (∀ (after_lines hunk_lines : List Pair) (y : Option Nat) (a b : Nat),
      (∀ p ∈ after_lines, p.1.isSome ∧ p.2.isSome) →
      after_lines.head? = some (some b, y) →
      (to_lhs_iter hunk_lines).getLast? = some a →
      a < b →
      last_lhs_line after_lines hunk_lines = some (b - 1))
    ∧ (∀ (after_lines hunk_lines : List Pair),
      (∀ p ∈ after_lines, p.1.isSome ∧ p.2.isSome) →
      to_lhs_iter hunk_lines = [] →
      last_lhs_line after_lines hunk_lines = none) := by
  refine ⟨?_, ?_, ?_, ?_⟩
  · intro before_lines hunk_lines x a b hcommon hlast hhead hab
    rw [first_rhs_line_all_common _ _ hcommon, hlast, hhead]
    simp only []
    rw [if_pos (by omega)]
  · intro before_lines hunk_lines hcommon hrh
    rw [first_rhs_line_all_common _ _ hcommon]
    cases hgl : before_lines.getLast? with
    | none => rfl
    | some pr =>
      obtain ⟨pl, pr2⟩ := pr
      cases pr2 with
      | none => rfl
      | some a => simp [hrh]
  · intro after_lines hunk_lines y a b hcommon hhead hlast hab
    rw [last_lhs_line_all_common _ _ hcommon, hhead, hlast]
    simp only []
    rw [if_pos (by omega)]
  · intro after_lines hunk_lines hcommon hlh
    rw [last_lhs_line_all_common _ _ hcommon]
    cases hgl : after_lines.head? with
    | none => rfl
    | some pr =>
      obtain ⟨pl, pr2⟩ := pr
      cases pl with
      | none => rfl
      | some b => simp [hlh]

/-- Witness for `C2_boundary_wholly_common`: a window of one common pair
`(3, 4)` before a hunk whose first right value is 6 yields boundary 5, and
the mirrored after-window `(7, 6)` behind a hunk whose last left value is 4
yields boundary 6. -/
theorem C2_boundary_wholly_common_witness :
    first_rhs_line [(some 3, some 4)] [(none, some 6)] = some 5
      ∧ last_lhs_line [(some 7, some 6)] [(some 4, none)] = some 6 :=
  ⟨C2_boundary_wholly_common.1 [(some 3, some 4)] [(none, some 6)]
      (some 3) 4 6 (by decide) (by decide) (by decide) (by decide),
    C2_boundary_wholly_common.2.2.1 [(some 7, some 6)] [(some 4, none)]
      (some 6) 4 7 (by decide) (by decide) (by decide) (by decide)⟩

/-- C7: every way the boundary resolver can fail to produce a value — empty
context window, window's edge uncommon pair lacking a value on the opposite
side, hunk lacking present values on the opposite side, or no line available
strictly between the common value and the hunk — yields an absent boundary,
and an absent boundary merely drops the extra line from the assembled
projection (narrowing the shown context) instead of failing. -/
theorem C7_absent_boundary :
    (∀ hunk_lines : List Pair, first_rhs_line [] hunk_lines = none)
    ∧ (∀ (common rest hunk_lines : List Pair) (lv : Option Nat),
      (∀ p ∈ common, p.1.isSome ∧ p.2.isSome) →
      first_rhs_line (common ++ (lv, none) :: rest) hunk_lines = none)
    ∧ (∀ (before_lines hunk_lines : List Pair),
      (∀ p ∈ before_lines, p.1.isSome ∧ p.2.isSome) →
      to_rhs_iter hunk_lines = [] →
      first_rhs_line before_lines hunk_lines = none)
    ∧ (∀ (before_lines hunk_lines : List Pair) (x : Option Nat) (a b : Nat),
      (∀ p ∈ before_lines, p.1.isSome ∧ p.2.isSome) →
      before_lines.getLast? = some (x, some a) →
      (to_rhs_iter hunk_lines).head? = some b →
      b ≤ a →
      first_rhs_line before_lines hunk_lines = none)
    ∧ (∀ before_lines hunk_lines after_lines : List Pair,
      first_rhs_line before_lines hunk_lines = none →
      all_rhs_lines before_lines hunk_lines after_lines
        = to_rhs_iter hunk_lines ++ to_rhs_iter after_lines)
    ∧ (∀ hunk_lines : List Pair, last_lhs_line [] hunk_lines = none)
    ∧ (∀ (u common hunk_lines : List Pair) (rv : Option Nat),
      (∀ p ∈ common, p.1.isSome ∧ p.2.isSome) →
      last_lhs_line (u ++ (none, rv) :: common) hunk_lines = none)
    ∧ (∀ (after_lines hunk_lines : List Pair),
      (∀ p ∈ after_lines, p.1.isSome ∧ p.2.isSome) →
      to_lhs_iter hunk_lines = [] →
      last_lhs_line after_lines hunk_lines = none)
    ∧ (∀ (after_lines hunk_lines : List Pair) (y : Option Nat) (a b : Nat),
      (∀ p ∈ after_lines, p.1.isSome ∧ p.2.isSome) →
      after_lines.head? = some (some b, y) →
      (to_lhs_iter hunk_lines).getLast? = some a →
      b ≤ a →
      last_lhs_line after_lines hunk_lines = none)
    ∧ (∀ before_lines hunk_lines after_lines : List Pair,
      last_lhs_line after_lines hunk_lines = none →
      all_lhs_lines before_lines hunk_lines after_lines
        = to_lhs_iter before_lines ++ to_lhs_iter hunk_lines) := by
  refine ⟨fun hunk_lines => rfl, ?_, ?_, ?_, ?_, fun hunk_lines => rfl, ?_,
    ?_, ?_, ?_⟩
  · intro common rest hunk_lines lv hcommon
    have htw : (common ++ (lv, none) :: rest).takeWhile
        (fun p => p.1.isSome && p.2.isSome) = common := by
      rw [takeWhile_append_all _ _ _ (fun y hy => by
        have hc := hcommon y hy
        simp [hc.1, hc.2])]
      simp [List.takeWhile_cons]
    simp only [first_rhs_line, htw, List.take_left, List.drop_left,
      List.head?_cons]
  · intro before_lines hunk_lines hcommon hrh
    exact C2_boundary_wholly_common.2.1 before_lines hunk_lines hcommon hrh
  · intro before_lines hunk_lines x a b hcommon hlast hhead hab
    rw [first_rhs_line_all_common _ _ hcommon, hlast, hhead]
    simp only []
    rw [if_neg (by omega)]
  · intro before_lines hunk_lines after_lines hnone
    simp [all_rhs_lines, hnone]
  · intro u common hunk_lines rv hcommon
    have htw : (u ++ (none, rv) :: common).reverse.takeWhile
        (fun p => p.1.isSome && p.2.isSome) = common.reverse := by
      rw [List.reverse_append, List.reverse_cons]
      rw [List.append_assoc]
      rw [takeWhile_append_all _ _ _ (fun y hy => by
        have hc := hcommon y (List.mem_reverse.mp hy)
        simp [hc.1, hc.2])]
      simp [List.takeWhile_cons]
    have hlen : (u ++ (none, rv) :: common).length - common.length
        = u.length + 1 := by
      simp
      omega
    have hassoc : u ++ ((none : Option Nat), rv) :: common
        = (u ++ [((none : Option Nat), rv)]) ++ common := by
      simp
    simp only [last_lhs_line, htw, List.length_reverse, hlen]
    rw [hassoc]
    rw [List.take_left' (show (u ++ [((none : Option Nat), rv)]).length
      = u.length + 1 by simp)]
    rw [List.getLast?_concat]
  · intro after_lines hunk_lines hcommon hlh
    exact C2_boundary_wholly_common.2.2.2 after_lines hunk_lines hcommon hlh
  · intro after_lines hunk_lines y a b hcommon hhead hlast hab
    rw [last_lhs_line_all_common _ _ hcommon, hhead, hlast]
    simp only []
    rw [if_neg (by omega)]
  · intro before_lines hunk_lines after_lines hnone
    simp [all_lhs_lines, hnone]

/-- Witness for `C7_absent_boundary`: the edge-uncommon-pair case (a pure
deletion pair at the window edge has no right value) together with the
context-narrowing consequence. -/
theorem C7_absent_boundary_witness :
    first_rhs_line [(some 1, some 1), (some 2, none)] [(some 3, none)] = none
      ∧ all_rhs_lines [(some 1, some 1), (some 2, none)] [(some 3, none)]
          [(some 4, some 2)]
        = to_rhs_iter [(some 3, none)] ++ to_rhs_iter [(some 4, some 2)] :=
  ⟨C7_absent_boundary.2.1 [(some 1, some 1)] [] [(some 3, none)] (some 2)
      (by decide),
    C7_absent_boundary.2.2.2.2.1 [(some 1, some 1), (some 2, none)]
      [(some 3, none)] [(some 4, some 2)]
      (C7_absent_boundary.2.1 [(some 1, some 1)] [] [(some 3, none)] (some 2)
        (by decide))⟩

theorem emit_all_isSome (f : Nat × Bool → Option (List Char)) :
    ∀ ps : List (Nat × Bool), (∀ p ∈ ps, (f p).isSome) →
      ∃ out, emit_all f ps = some out ∧ out.length = ps.length := by
  intro ps
  induction ps with
  | nil => intro _; exact ⟨[], rfl, rfl⟩
  | cons p ps ih =>
    intro h
    obtain ⟨s, hs⟩ := Option.isSome_iff_exists.mp (h p (List.mem_cons_self _ _))
    obtain ⟨out, hout, hlen⟩ :=
      ih (fun q hq => h q (List.mem_cons_of_mem _ hq))
    refine ⟨s :: out, ?_, by simp [hlen]⟩
    simp [emit_all, hs, hout]

theorem emit_all_none (f : Nat × Bool → Option (List Char)) :
    ∀ ps : List (Nat × Bool), (∃ p ∈ ps, f p = none) →
      emit_all f ps = none := by
  intro ps
  induction ps with
  | nil => intro h; simp at h
  | cons p ps ih =>
    intro h
    obtain ⟨q, hq, hfq⟩ := h
    rcases List.mem_cons.mp hq with rfl | hq'
    · simp [emit_all, hfq]
    · cases hfp : f p with
      | none => simp [emit_all, hfp]
      | some s => simp [emit_all, hfp, ih ⟨q, hq', hfq⟩]

theorem emit_all_mem (f : Nat × Bool → Option (List Char)) :
    ∀ (ps : List (Nat × Bool)) (out : List (List Char)),
      emit_all f ps = some out → ∀ s ∈ out, ∃ p ∈ ps, f p = some s := by
  intro ps
  induction ps with
  | nil =>
    intro out h s hs
    simp only [emit_all, Option.some.injEq] at h
    subst h
    simp at hs
  | cons p ps ih =>
    intro out h s hs
    cases hfp : f p with
    | none => simp [emit_all, hfp] at h
    | some v =>
      cases hrec : emit_all f ps with
      | none => simp [emit_all, hfp, hrec] at h
      | some rest =>
        simp only [emit_all, hfp, hrec, Option.some.injEq] at h
        subst h
        rcases List.mem_cons.mp hs with rfl | hs'
        · exact ⟨p, List.mem_cons_self _ _, hfp⟩
        · obtain ⟨q, hq, hfq⟩ := ih rest hrec s hs'
          exact ⟨q, List.mem_cons_of_mem _ hq, hfq⟩

/-- Every line emitted by a side's block is a looked-up pre-rendered source
line dressed by `mk` and `fmt`. -/
theorem print_block_mem (fmt : Nat → Bool → List Char)
    (mk : List Char → List Char → List Char) (tbl : List (List Char))
    (hunk_vals : List Nat) (interval : Option (Nat × Nat))
    (out : List (List Char))
    (h : print_block fmt mk tbl hunk_vals interval = some out) :
    ∀ s ∈ out, ∃ (n : Nat) (novel : Bool) (text : List Char),
      tbl.get? n = some text ∧ s = mk (fmt n novel) text := by
  cases interval with
  | none =>
    simp only [print_block, Option.some.injEq] at h
    subst h
    simp
  | some fl =>
    obtain ⟨first, last⟩ := fl
    simp only [print_block] at h
    intro s hs
    obtain ⟨p, hp, hfp⟩ := emit_all_mem _ _ _ h s hs
    cases ht : tbl.get? p.1 with
    | none => rw [ht] at hfp; simp at hfp
    | some text =>
      rw [ht] at hfp
      simp only [Option.map_some', Option.some.injEq] at hfp
      exact ⟨p.1, p.2, text, ht, hfp.symm⟩

/-- C8: if every line number of a display interval indexes into the
pre-rendered table, the block prints fully (one emission per interval line);
if any interval line number is out of range, the block is a failure (the
modelled panic), never a silently truncated output. -/
theorem C8_lookup_safety (fmt : Nat → Bool → List Char)
    (mk : List Char → List Char → List Char) (tbl : List (List Char))
    (hunk_vals : List Nat) (first last : Nat) :
    ((∀ n ∈ lineRange first last, n < tbl.length) →
      ∃ out, print_block fmt mk tbl hunk_vals (some (first, last)) = some out
        ∧ out.length = (lineRange first last).length)
    ∧ ((∃ n ∈ lineRange first last, tbl.length ≤ n) →
      print_block fmt mk tbl hunk_vals (some (first, last)) = none) := by
  constructor
  · intro hin
    have hforall : ∀ p ∈ novelty_iter hunk_vals (lineRange first last),
        ((tbl.get? p.1).map (fun text => mk (fmt p.1 p.2) text)).isSome := by
      intro p hp
      have hp1 : p.1 ∈ lineRange first last := by
        rw [← novelty_iter_map_fst hunk_vals (lineRange first last)]
        exact List.mem_map_of_mem _ hp
      have hlt := hin p.1 hp1
      have hv : tbl.get? p.1 = some (tbl.get ⟨p.1, hlt⟩) :=
        List.get?_eq_get hlt
      rw [hv]
      rfl
    obtain ⟨out, hout, hlen⟩ := emit_all_isSome _ _ hforall
    refine ⟨out, ?_, ?_⟩
    · simpa [print_block] using hout
    · rw [hlen]
      simpa using congrArg List.length
        (novelty_iter_map_fst hunk_vals (lineRange first last))
  · rintro ⟨n, hn, hlen⟩
    have hmem : n ∈ (novelty_iter hunk_vals (lineRange first last)).map
        Prod.fst := by
      rw [novelty_iter_map_fst]
      exact hn
    obtain ⟨p, hp, hpeq⟩ := List.mem_map.mp hmem
    subst hpeq
    have hnone : tbl.get? p.1 = none := by
      rw [List.get?_eq_none]
      exact hlen
    simp only [print_block]
    exact emit_all_none _ _ ⟨p, hp, by rw [hnone]; rfl⟩

/-- Witness for `C8_lookup_safety`: a two-line table covering interval
`(0, 1)` prints fully, and the same interval over a one-line table fails. -/
theorem C8_lookup_safety_witness :
    (∃ out, print_block (fun n _ => Nat.toDigits 10 n) mk_lhs_line
        [['a', '\n'], ['b', '\n']] [1] (some (0, 1)) = some out
      ∧ out.length = (lineRange 0 1).length)
    ∧ print_block (fun n _ => Nat.toDigits 10 n) mk_lhs_line
        [['a', '\n']] [1] (some (0, 1)) = none :=
  ⟨(C8_lookup_safety (fun n _ => Nat.toDigits 10 n) mk_lhs_line
      [['a', '\n'], ['b', '\n']] [1] 0 1).1 (by decide),
    (C8_lookup_safety (fun n _ => Nat.toDigits 10 n) mk_lhs_line
      [['a', '\n']] [1] 0 1).2 ⟨1, by decide, by decide⟩⟩

/-- C4: a successful per-hunk print emits exactly one header line, then the
left-block lines — each the colored padded left number, three spaces, then
the looked-up source text — then the right-block lines — each three spaces,
the colored padded right number, then the looked-up source text — then one
blank line; the left block fully precedes the right block, both numbers use
the hunk's shared column width, and the printer appends nothing to any
source line. -/
theorem C4_output_shape (E : Externals)
    (lhs_colored_lines rhs_colored_lines : List (List Char))
    (before_lines hunk_lines after_lines : List Pair) (hdr : List Char)
    (out : List (List Char))
    (hrun : print_hunk E lhs_colored_lines rhs_colored_lines before_lines
      hunk_lines after_lines hdr = some out) :
    ∃ lblock rblock,
      out = (hdr ++ ['\n']) :: (lblock ++ rblock ++ [['\n']])
      ∧ (∀ s ∈ lblock, ∃ (n : Nat) (novel : Bool) (text : List Char),
          lhs_colored_lines.get? n = some text
          ∧ s = E.apply_line_number_color
              (E.format_line_num_padded n
                (line_column_width E.format_line_num
                  (get_first_last
                    (all_lhs_lines before_lines hunk_lines after_lines))
                  (get_first_last
                    (all_rhs_lines before_lines hunk_lines after_lines))))
              novel Side.Left ++ [' ', ' ', ' '] ++ text)
      ∧ (∀ s ∈ rblock, ∃ (n : Nat) (novel : Bool) (text : List Char),
          rhs_colored_lines.get? n = some text
          ∧ s = [' ', ' ', ' '] ++ E.apply_line_number_color
              (E.format_line_num_padded n
                (line_column_width E.format_line_num
                  (get_first_last
                    (all_lhs_lines before_lines hunk_lines after_lines))
                  (get_first_last
                    (all_rhs_lines before_lines hunk_lines after_lines))))
              novel Side.Right ++ text) := by
  simp only [print_hunk, Option.bind_eq_some, Option.map_eq_some'] at hrun
  obtain ⟨lblock, hL, rblock, hR, hout⟩ := hrun
  refine ⟨lblock, rblock, hout.symm, ?_, ?_⟩
  · intro s hs
    obtain ⟨n, novel, text, ht, hmk⟩ :=
      print_block_mem _ _ _ _ _ _ hL s hs
    exact ⟨n, novel, text, ht, hmk⟩
  · intro s hs
    obtain ⟨n, novel, text, ht, hmk⟩ :=
      print_block_mem _ _ _ _ _ _ hR s hs
    exact ⟨n, novel, text, ht, hmk⟩

/-- A concrete instantiation of the external collaborators, used by
witnesses: decimal digits for numbers, no pad, no colour, a constant
header, empty context windows. -/
def sampleE : Externals where
  format_line_num := fun n => Nat.toDigits 10 n
  format_line_num_padded := fun n _ => Nat.toDigits 10 n
  apply_line_number_color := fun s _ _ => s
  header := fun i total => Nat.toDigits 10 i ++ '/' :: Nat.toDigits 10 total
  calculate_before_context := fun _ => []
  calculate_after_context := fun _ => []

/-- Witness for `C4_output_shape`: one replaced line, one-line tables. -/
theorem C4_output_shape_witness :
    ∃ lblock rblock,
      [['H', '\n'], ['0', ' ', ' ', ' ', 'x', '\n'],
          [' ', ' ', ' ', '0', 'y', '\n'], ['\n']]
        = (['H'] ++ ['\n']) :: (lblock ++ rblock ++ [['\n']])
      ∧ (∀ s ∈ lblock, ∃ (n : Nat) (novel : Bool) (text : List Char),
          [['x', '\n']].get? n = some text
          ∧ s = sampleE.apply_line_number_color
              (sampleE.format_line_num_padded n
                (line_column_width sampleE.format_line_num
                  (get_first_last
                    (all_lhs_lines [] [(some 0, some 0)] []))
                  (get_first_last
                    (all_rhs_lines [] [(some 0, some 0)] []))))
              novel Side.Left ++ [' ', ' ', ' '] ++ text)
      ∧ (∀ s ∈ rblock, ∃ (n : Nat) (novel : Bool) (text : List Char),
          [['y', '\n']].get? n = some text
          ∧ s = [' ', ' ', ' '] ++ sampleE.apply_line_number_color
              (sampleE.format_line_num_padded n
                (line_column_width sampleE.format_line_num
                  (get_first_last
                    (all_lhs_lines [] [(some 0, some 0)] []))
                  (get_first_last
                    (all_rhs_lines [] [(some 0, some 0)] []))))
              novel Side.Right ++ text) :=
  C4_output_shape sampleE [['x', '\n']] [['y', '\n']] [] [(some 0, some 0)]
    [] ['H']
    [['H', '\n'], ['0', ' ', ' ', ' ', 'x', '\n'],
      [' ', ' ', ' ', '0', 'y', '\n'], ['\n']]
    (by rfl)

theorem print_hunks_go_cons (E : Externals)
    (ltbl rtbl : List (List Char)) (total idx : Nat) (h : List Pair)
    (hs : List (List Pair)) :
    print_hunks_go E ltbl rtbl total idx (h :: hs)
      = (print_hunk_at E ltbl rtbl total idx h).bind
          (fun o => (print_hunks_go E ltbl rtbl total (idx + 1) hs).map
            (fun rest => o ++ rest)) := by
  cases hx : print_hunk_at E ltbl rtbl total idx h with
  | none => simp [print_hunks_go, hx]
  | some o =>
    cases hy : print_hunks_go E ltbl rtbl total (idx + 1) hs with
    | none => simp [print_hunks_go, hx, hy]
    | some rest => simp [print_hunks_go, hx, hy]

theorem print_hunks_go_append (E : Externals)
    (ltbl rtbl : List (List Char)) (total : Nat) (hs1 hs2 : List (List Pair)) :
    ∀ idx : Nat,
      print_hunks_go E ltbl rtbl total idx (hs1 ++ hs2)
        = (print_hunks_go E ltbl rtbl total idx hs1).bind
            (fun o1 => (print_hunks_go E ltbl rtbl total (idx + hs1.length)
                hs2).map
              (fun o2 => o1 ++ o2)) := by
  induction hs1 with
  | nil =>
    intro idx
    cases hy : print_hunks_go E ltbl rtbl total idx hs2 with
    | none => simp [print_hunks_go, hy]
    | some o => simp [print_hunks_go, hy]
  | cons q qs ih =>
    intro idx
    rw [List.cons_append, print_hunks_go_cons, print_hunks_go_cons, ih]
    have harith : idx + 1 + qs.length = idx + (qs.length + 1) := by omega
    cases hx : print_hunk_at E ltbl rtbl total idx q with
    | none => simp
    | some o =>
      cases hy : print_hunks_go E ltbl rtbl total (idx + 1) qs with
      | none => simp
      | some o1 =>
        cases hz : print_hunks_go E ltbl rtbl total (idx + 1 + qs.length)
            hs2 with
        | none => simp [harith ▸ hz]
        | some o2 => simp [harith ▸ hz, List.append_assoc]

/-- C9: the rendering pass is a pure function of its inputs — rerunning it
gives the same value — and each hunk's emitted segment is computed by
`print_hunk_at` from that hunk's own data and position alone: surrounding
hunks contribute only their own segments, so the boundary resolution inside
a hunk's segment cannot depend on which other hunks are processed. -/
theorem C9_determinism (E : Externals) (ltbl rtbl : List (List Char))
    (total idx : Nat) (pre post : List (List Pair)) (h : List Pair) :
    print_hunks_go E ltbl rtbl total idx (pre ++ h :: post)
      = (print_hunks_go E ltbl rtbl total idx pre).bind
          (fun o1 =>
            (print_hunk_at E ltbl rtbl total (idx + pre.length) h).bind
              (fun oh =>
                (print_hunks_go E ltbl rtbl total (idx + pre.length + 1)
                    post).map
                  (fun o2 => o1 ++ oh ++ o2)))
      ∧ print_hunks E ltbl rtbl (pre ++ h :: post)
          = print_hunks E ltbl rtbl (pre ++ h :: post) := by
  refine ⟨?_, rfl⟩
  rw [print_hunks_go_append, print_hunks_go_cons]
  cases hx : print_hunks_go E ltbl rtbl total idx pre with
  | none => simp
  | some o1 =>
    cases hy : print_hunk_at E ltbl rtbl total (idx + pre.length) h with
    | none => simp
    | some oh =>
      cases hz : print_hunks_go E ltbl rtbl total (idx + pre.length + 1)
          post with
      | none => simp
      | some o2 => simp [List.append_assoc]

theorem split_on_newlines_no_newline (s : List Char) :
    ∀ piece ∈ split_on_newlines s, '\n' ∉ piece := by
  induction s with
  | nil =>
    intro piece hp
    simp [split_on_newlines] at hp
  | cons c cs ih =>
    intro piece hp
    by_cases hc : c = '\n'
    · simp only [split_on_newlines, if_pos hc] at hp
      rcases List.mem_cons.mp hp with rfl | hp'
      · simp
      · exact ih piece hp'
    · simp only [split_on_newlines, if_neg hc] at hp
      cases hsp : split_on_newlines cs with
      | nil =>
        rw [hsp] at hp
        simp only [List.mem_singleton] at hp
        subst hp
        simp only [List.mem_singleton]
        intro hn
        exact hc hn.symm
      | cons p ps =>
        rw [hsp] at hp
        rcases List.mem_cons.mp hp with rfl | hp'
        · intro hn
          rcases List.mem_cons.mp hn with h1 | h2
          · exact hc h1.symm
          · exact ih p (by rw [hsp]; exact List.mem_cons_self _ _) h2
        · exact ih piece (by rw [hsp]; exact List.mem_cons_of_mem _ hp')

theorem replace_tabs_not_mem_newline (line : List Char) (tw : Nat)
    (h : '\n' ∉ line) : '\n' ∉ replace_tabs line tw := by
  intro hmem
  simp only [replace_tabs, List.mem_flatMap] at hmem
  obtain ⟨c, hc, hcm⟩ := hmem
  by_cases hct : c = '\t'
  · rw [if_pos hct] at hcm
    have := List.eq_of_mem_replicate hcm
    simp at this
  · rw [if_neg hct] at hcm
    simp only [List.mem_singleton] at hcm
    subst hcm
    exact h hc

theorem replace_tabs_append (l1 l2 : List Char) (tw : Nat) :
    replace_tabs (l1 ++ l2) tw = replace_tabs l1 tw ++ replace_tabs l2 tw := by
  simp [replace_tabs]

theorem replace_tabs_newline (tw : Nat) :
    replace_tabs ['\n'] tw = ['\n'] := by
  simp [replace_tabs]

/-- C10: with colours disabled the pre-rendered table has one entry per
source line of the spec-modelled line splitting, and every entry — the final
unterminated line included — ends with exactly one appended newline (its
last character is `\n` and it contains no other `\n`), surviving tab
expansion. -/
theorem C10_table_newline_terminated (src : List Char) (tab_width : Nat) :
    (uncolored_lines src tab_width).length = (split_on_newlines src).length
    ∧ ∀ entry ∈ uncolored_lines src tab_width,
        entry.getLast? = some '\n' ∧ entry.count '\n' = 1 := by
  constructor
  · simp [uncolored_lines]
  · intro entry hentry
    simp only [uncolored_lines, List.map_map, List.mem_map,
      Function.comp_apply] at hentry
    obtain ⟨piece, hpiece, hentry2⟩ := hentry
    have hnn : '\n' ∉ piece := split_on_newlines_no_newline src piece hpiece
    have hform : entry = replace_tabs piece tab_width ++ ['\n'] := by
      rw [← hentry2, replace_tabs_append, replace_tabs_newline]
    subst hform
    constructor
    · exact List.getLast?_concat _
    · rw [List.count_append]
      rw [List.count_eq_zero.mpr (replace_tabs_not_mem_newline piece
        tab_width hnn)]
      rfl

/-- Witness for `C10_table_newline_terminated`: a two-line source with a tab
and no trailing newline. -/
theorem C10_table_newline_terminated_witness :
    (['a', ' ', ' ', '\n'] : List Char).getLast? = some '\n'
      ∧ (['a', ' ', ' ', '\n'] : List Char).count '\n' = 1 :=
  (C10_table_newline_terminated ['a', '\t', '\n', 'b'] 2).2
    ['a', ' ', ' ', '\n'] (by decide)

end Inline
